import Mathlib

/-!
# Verification of the openmanus LLM gateway core

Shallow embedding, in Lean 4, of the parts of the `openmanus` repository that
the specification's claims are about:

* `src/openmanus/llm/cost_tracker.py` — `CostTracker` (records, summary, budget).
* `src/openmanus/llm/cache.py` — `LLMCache._build_cache_key` and `MemoryLLMCache`.
* `src/openmanus/llm/rate_limiter.py` — `MemoryRateLimiter`.
* `src/openmanus/llm/adapters/litellm_adapter.py` — retry policy and response parsing.
* `src/openmanus/llm/adapters/base.py`, `types.py` — request validation.
* `src/openmanus/llm/health.py` — `LLMHealthChecker.check_model`.

Modelling conventions: Python `float` values are embedded as `ℚ` (the claims
never depend on rounding), Python `int` as `Int`, wall-clock readings of
`time.time()` become explicit `now` parameters, Python dicts preserving
insertion order become association lists, and calls into external libraries
(SHA-256, litellm cost computation, `repr` of a float) are passed in as
function parameters of the definitions that use them.
-/

namespace CostTrackerM

/-- Mirrors `CostRecord` of `cost_tracker.py` (the `timestamp` field is kept;
it plays no role in any operation below, exactly as in the source). -/
structure CostRecord where
  model : String
  task_id : String
  step_id : Option String
  prompt_tokens : Int
  completion_tokens : Int
  cost_usd : ℚ
  timestamp : ℚ
deriving DecidableEq

/-- Mirrors `CostSummary` of `cost_tracker.py`. The Python dicts `by_model`
and `by_task` are insertion-ordered association lists. -/
structure CostSummary where
  total_cost_usd : ℚ
  total_tokens : Int
  call_count : Nat
  by_model : List (String × ℚ)
  by_task : List (String × ℚ)
deriving DecidableEq

/-- The mutable state of a `CostTracker`: `_budget`, `_records`, `_total_cost`,
plus whether an `_on_budget_exceeded` callback was supplied at construction. -/
structure CostTrackerState where
  budget : Option ℚ
  has_callback : Bool
  records : List CostRecord
  total_cost : ℚ
deriving DecidableEq

/-- `CostTracker.__init__`. -/
def CostTrackerState.init (budget_usd : Option ℚ) (cb : Bool) : CostTrackerState :=
  ⟨budget_usd, cb, [], 0⟩

/-- `CostTracker.record`.  Appends the record, adds the cost, and then runs
`if self._budget and self._total_cost > self._budget: if self._on_budget_exceeded:
self._on_budget_exceeded(...)`.  `if self._budget` is Python truthiness: it is
false both for `None` and for a `0.0` budget.  The returned flag says whether
the callback was invoked by this call. -/
def recordCall (st : CostTrackerState) (r : CostRecord) : CostTrackerState × Bool :=
  let total := st.total_cost + r.cost_usd
  let st' : CostTrackerState := { st with records := st.records ++ [r], total_cost := total }
  let fired :=
    match st.budget with
    | none => false
    | some b => decide (b ≠ 0) && decide (b < total) && st.has_callback
  (st', fired)

/-- A sequence of `record` calls; returns the final state and, per call, the
flag saying whether the budget callback fired on that call. -/
def runRecords (st : CostTrackerState) : List CostRecord → CostTrackerState × List Bool
  | [] => (st, [])
  | r :: rs =>
    let p := recordCall st r
    let q := runRecords p.1 rs
    (q.1, p.2 :: q.2)

/-- The dict update pattern used twice inside `CostTracker.get_summary`:
`if key not in d: d[key] = 0.0` followed by `d[key] += cost`. -/
def bump (m : List (String × ℚ)) (k : String) (c : ℚ) : List (String × ℚ) :=
  if m.any (fun p => p.1 = k) then
    m.map (fun p => if p.1 = k then (p.1, p.2 + c) else p)
  else
    m ++ [(k, c)]

/-- One iteration of the `for record in self._records` loop of
`CostTracker.get_summary`. -/
def summaryStep (s : CostSummary) (r : CostRecord) : CostSummary :=
  { s with
    total_cost_usd := s.total_cost_usd + r.cost_usd
    total_tokens := s.total_tokens + (r.prompt_tokens + r.completion_tokens)
    by_model := bump s.by_model r.model r.cost_usd
    by_task := bump s.by_task r.task_id r.cost_usd }

/-- `CostTracker.get_summary`: fresh `CostSummary`, `call_count` set to the
number of records, then one pass over `self._records` accumulating totals and
the two per-key dicts. -/
def get_summary (records : List CostRecord) : CostSummary :=
  records.foldl summaryStep ⟨0, 0, records.length, [], []⟩

/-- `CostTracker.get_task_cost`: sum of `cost_usd` over the records whose
`task_id` matches. -/
def get_task_cost (records : List CostRecord) (task_id : String) : ℚ :=
  ((records.filter fun r => r.task_id = task_id).map fun r => r.cost_usd).sum

/-- `CostTracker.get_remaining_budget`. -/
def get_remaining_budget (st : CostTrackerState) : Option ℚ :=
  match st.budget with
  | none => none
  | some b => some (max 0 (b - st.total_cost))

/-- `CostTracker.is_budget_exceeded`. -/
def is_budget_exceeded (st : CostTrackerState) : Bool :=
  match st.budget with
  | none => false
  | some b => decide (b < st.total_cost)

/-- Reading a Python float dict with `0.0` default: the per-task aggregate a
caller observes on `summary.by_task`. -/
def lookupQ (m : List (String × ℚ)) (k : String) : ℚ :=
  match m.find? (fun p => decide (p.1 = k)) with
  | some p => p.2
  | none => 0

theorem lookupQ_nil (k : String) : lookupQ [] k = 0 := rfl

theorem lookupQ_cons (p : String × ℚ) (m : List (String × ℚ)) (t : String) :
    lookupQ (p :: m) t = if p.1 = t then p.2 else lookupQ m t := by
  by_cases h : p.1 = t <;> simp [lookupQ, List.find?_cons, h]

theorem lookupQ_of_not_mem (m : List (String × ℚ)) (k : String)
    (h : (m.any fun p => p.1 = k) = false) : lookupQ m k = 0 := by
  induction m with
  | nil => rfl
  | cons p m ih =>
    simp only [List.any_cons, Bool.or_eq_false_iff, decide_eq_false_iff_not] at h
    rw [lookupQ_cons, if_neg h.1]
    exact ih (by simpa using h.2)

theorem lookupQ_append_pair (m : List (String × ℚ)) (k t : String) (c : ℚ) :
    lookupQ (m ++ [(k, c)]) t =
      if (m.any fun p => p.1 = t) then lookupQ m t else if k = t then c else 0 := by
  induction m with
  | nil => simp [lookupQ_cons, lookupQ_nil]
  | cons p m ih =>
    by_cases h : p.1 = t
    · simp [lookupQ_cons, List.any_cons, h]
    · rw [List.cons_append, lookupQ_cons, if_neg h, ih, List.any_cons,
        decide_eq_false h, Bool.false_or, lookupQ_cons, if_neg h]

theorem lookupQ_map_update (m : List (String × ℚ)) (k t : String) (c : ℚ) :
    lookupQ (m.map fun q => if q.1 = k then (q.1, q.2 + c) else q) t =
      if k = t ∧ (m.any fun p => p.1 = k) = true then lookupQ m t + c
      else lookupQ m t := by
  induction m with
  | nil => simp
  | cons p m ih =>
    simp only [List.map_cons, lookupQ_cons, List.any_cons]
    by_cases hpk : p.1 = k
    · by_cases hkt : k = t
      · simp [hpk, hkt]
      · have hpt : ¬ p.1 = t := fun hh => hkt (hpk.symm.trans hh)
        simp [hpk, hkt, hpt, ih]
    · by_cases hpt : p.1 = t
      · have hkt : ¬ k = t := fun hh => hpk (hpt.trans hh.symm)
        have htk : ¬ t = k := fun hh => hkt hh.symm
        simp [hpk, hpt, hkt, htk]
      · have hd : decide (p.1 = k) = false := decide_eq_false hpk
        rw [if_neg hpk, if_neg hpt, ih, hd, Bool.false_or, if_neg hpt]

theorem lookupQ_bump (m : List (String × ℚ)) (k t : String) (c : ℚ) :
    lookupQ (bump m k c) t = if k = t then lookupQ m t + c else lookupQ m t := by
  unfold bump
  by_cases ha : (m.any fun p => p.1 = k) = true
  · rw [if_pos ha, lookupQ_map_update]
    by_cases hkt : k = t
    · rw [if_pos ⟨hkt, ha⟩, if_pos hkt]
    · rw [if_neg (fun hh : k = t ∧ _ => hkt hh.1), if_neg hkt]
  · have ha' : (m.any fun p => p.1 = k) = false := Bool.eq_false_iff.mpr ha
    rw [if_neg ha, lookupQ_append_pair]
    by_cases hkt : k = t
    · subst hkt
      have hmt : ¬ ((m.any fun p => p.1 = k) = true) := ha
      rw [if_neg hmt, if_pos rfl, if_pos rfl, lookupQ_of_not_mem m k ha', zero_add]
    · by_cases hmt : (m.any fun p => p.1 = t) = true
      · rw [if_pos hmt, if_neg hkt]
      · rw [if_neg hmt, if_neg hkt, if_neg hkt]
        have hmt' : (m.any fun p => p.1 = t) = false := Bool.eq_false_iff.mpr hmt
        rw [lookupQ_of_not_mem m t hmt']

theorem foldl_summary_total (recs : List CostRecord) :
    ∀ s : CostSummary, (recs.foldl summaryStep s).total_cost_usd =
      s.total_cost_usd + ((recs.map fun r => r.cost_usd).sum) := by
  induction recs with
  | nil => intro s; simp
  | cons r recs ih => intro s; simp [List.foldl_cons, ih, summaryStep, add_assoc]

theorem get_task_cost_nil (t : String) : get_task_cost [] t = 0 := rfl

theorem get_task_cost_cons (r : CostRecord) (recs : List CostRecord) (t : String) :
    get_task_cost (r :: recs) t =
      (if r.task_id = t then r.cost_usd else 0) + get_task_cost recs t := by
  by_cases h : r.task_id = t <;> simp [get_task_cost, h]

theorem get_task_cost_append_one (recs : List CostRecord) (r : CostRecord) (t : String) :
    get_task_cost (recs ++ [r]) t =
      get_task_cost recs t + (if r.task_id = t then r.cost_usd else 0) := by
  by_cases h : r.task_id = t <;> simp [get_task_cost, List.filter_append, h]

theorem foldl_summary_by_task (recs : List CostRecord) :
    ∀ (s : CostSummary) (t : String),
      lookupQ (recs.foldl summaryStep s).by_task t =
        lookupQ s.by_task t + get_task_cost recs t := by
  induction recs with
  | nil => intro s t; simp [get_task_cost_nil]
  | cons r recs ih =>
    intro s t
    rw [List.foldl_cons, ih, get_task_cost_cons]
    show lookupQ (bump s.by_task r.task_id r.cost_usd) t + _ = _
    rw [lookupQ_bump]
    by_cases h : r.task_id = t
    · simp only [if_pos h]; ring
    · simp only [if_neg h]; ring

theorem get_summary_total (recs : List CostRecord) :
    (get_summary recs).total_cost_usd = (recs.map fun r => r.cost_usd).sum := by
  unfold get_summary; rw [foldl_summary_total]; simp

theorem get_summary_by_task (recs : List CostRecord) (t : String) :
    lookupQ (get_summary recs).by_task t = get_task_cost recs t := by
  unfold get_summary; rw [foldl_summary_by_task]; simp [lookupQ_nil]

theorem runRecords_state (rs : List CostRecord) :
    ∀ st : CostTrackerState, (runRecords st rs).1 =
      { st with records := st.records ++ rs
                total_cost := st.total_cost + (rs.map fun r => r.cost_usd).sum } := by
  induction rs with
  | nil => intro st; simp [runRecords]
  | cons r rs ih =>
    intro st
    simp [runRecords, recordCall, ih, List.append_assoc, add_assoc]

theorem runRecords_flag (rs : List CostRecord) :
    ∀ (st : CostTrackerState) (i : Nat), i < rs.length →
      (runRecords st rs).2.getD i false =
        (match st.budget with
         | none => false
         | some b =>
             decide (b ≠ 0) &&
               decide (b < st.total_cost + ((rs.take (i + 1)).map fun r => r.cost_usd).sum) &&
               st.has_callback) := by
  induction rs with
  | nil => intro st i h; simp at h
  | cons r rs ih =>
    intro st i h
    match i with
    | 0 =>
      cases hb : st.budget with
      | none => simp [runRecords, recordCall, hb]
      | some b => simp [runRecords, recordCall, hb]
    | i + 1 =>
      have hlen : i < rs.length := by simpa using Nat.lt_of_succ_lt_succ h
      have step := ih { st with records := st.records ++ [r]
                                total_cost := st.total_cost + r.cost_usd } i hlen
      cases hb : st.budget with
      | none => simpa [runRecords, recordCall, hb] using step
      | some b =>
        simpa [runRecords, recordCall, hb, add_assoc] using step

/-- Claim C6, corrected.  In `CostTracker.record` the guard is simply
`if self._budget and self._total_cost > self._budget`, so with a configured
nonzero budget and a callback, the callback is invoked at exactly those
`record` calls whose post-record running total exceeds the budget — at the
crossing record and again on every later record while the total stays above
the budget (conjunct 1); with no budget it never fires (conjunct 2). -/
theorem budget_callback_fires_above_budget :
    (∀ (b : ℚ) (cb : Bool) (rs : List CostRecord) (i : Nat), i < rs.length →
      (runRecords (CostTrackerState.init (some b) cb) rs).2.getD i false =
        (decide (b ≠ 0) &&
          decide (b < ((rs.take (i + 1)).map fun r => r.cost_usd).sum) && cb))
    ∧ (∀ (cb : Bool) (rs : List CostRecord) (i : Nat), i < rs.length →
      (runRecords (CostTrackerState.init none cb) rs).2.getD i false = false) := by
  constructor
  · intro b cb rs i h
    have := runRecords_flag rs (CostTrackerState.init (some b) cb) i h
    simpa [CostTrackerState.init] using this
  · intro cb rs i h
    have := runRecords_flag rs (CostTrackerState.init none cb) i h
    simpa [CostTrackerState.init] using this

/-- Witness for C6's theorem: with budget 1 and three unit-cost records, the
callback fires on the second record (the crossing). -/
theorem budget_callback_fires_above_budget_witness :
    (runRecords (CostTrackerState.init (some 1) true)
        [⟨"m", "t", none, 0, 0, 1, 0⟩, ⟨"m", "t", none, 0, 0, 1, 0⟩,
         ⟨"m", "t", none, 0, 0, 1, 0⟩]).2.getD 1 false = true := by
  rw [budget_callback_fires_above_budget.1 1 true _ 1 (by norm_num)]
  norm_num

/-- Counterexample to claim C6 as stated: with budget 1 and three records of
cost 1 each, the running total crosses the budget once (at the second record),
yet the callback also fires on the third record, while the total merely stays
above the budget.  The flag list is `[false, true, true]`, not
`[false, true, false]`. -/
theorem budget_callback_cex :
    (runRecords (CostTrackerState.init (some 1) true)
        [⟨"m", "t", none, 0, 0, 1, 0⟩, ⟨"m", "t", none, 0, 0, 1, 0⟩,
         ⟨"m", "t", none, 0, 0, 1, 0⟩]).2 = [false, true, true] := by
  simp only [runRecords, recordCall, CostTrackerState.init]
  norm_num

/-- Claim C7, corrected.  `get_summary().total_cost_usd` and the per-task
aggregate are non-decreasing under a further `record` **provided the recorded
`cost_usd` is nonnegative** (`record` accepts any float and a negative cost
decreases both); `get_task_cost` always equals the sum of `cost_usd` over the
records with the given `task_id`, and the `by_task` aggregate agrees with it. -/
theorem cost_monotonicity_amended :
    (∀ (recs : List CostRecord) (r : CostRecord), 0 ≤ r.cost_usd →
      (get_summary recs).total_cost_usd ≤ (get_summary (recs ++ [r])).total_cost_usd)
    ∧ (∀ (recs : List CostRecord) (r : CostRecord) (t : String), 0 ≤ r.cost_usd →
      lookupQ (get_summary recs).by_task t ≤ lookupQ (get_summary (recs ++ [r])).by_task t)
    ∧ (∀ (recs : List CostRecord) (t : String),
      lookupQ (get_summary recs).by_task t = get_task_cost recs t)
    ∧ (∀ (recs : List CostRecord) (t : String),
      get_task_cost recs t =
        ((recs.filter fun r => r.task_id = t).map fun r => r.cost_usd).sum) := by
  refine ⟨?_, ?_, ?_, ?_⟩
  · intro recs r hr
    rw [get_summary_total, get_summary_total]
    simp only [List.map_append, List.sum_append, List.map_cons, List.map_nil,
      List.sum_cons, List.sum_nil, add_zero]
    linarith
  · intro recs r t hr
    rw [get_summary_by_task, get_summary_by_task, get_task_cost_append_one]
    by_cases h : r.task_id = t
    · simp only [if_pos h]; linarith
    · simp [h]
  · exact fun recs t => get_summary_by_task recs t
  · intro recs t; rfl

/-- Witness for C7's theorem: a single nonnegative-cost record does not
decrease the summary total. -/
theorem cost_monotonicity_amended_witness :
    (get_summary []).total_cost_usd ≤
      (get_summary ([] ++ [⟨"m", "t", none, 0, 0, 1, 0⟩])).total_cost_usd :=
  cost_monotonicity_amended.1 [] ⟨"m", "t", none, 0, 0, 1, 0⟩ (by norm_num)

/-- Counterexample to claim C7 as stated: `record` accepts a negative
`cost_usd`, and then `get_summary().total_cost_usd` decreases from one record
to the next (1 after the first record, 0 after the second). -/
theorem cost_monotonicity_cex :
    ¬ ((get_summary [⟨"m", "t", none, 0, 0, 1, 0⟩]).total_cost_usd ≤
        (get_summary [⟨"m", "t", none, 0, 0, 1, 0⟩,
          ⟨"m", "t", none, 0, 0, -1, 0⟩]).total_cost_usd) := by
  rw [get_summary_total, get_summary_total]
  norm_num

/-- Claim C10, confirmed.  `get_remaining_budget` returns `None` exactly when
no budget was configured; with a budget it returns `max(0, budget − total)`,
hence never a negative number, and returns `0` whenever `is_budget_exceeded()`
is true.  The last conjunct ties the state's `_total_cost` to the sum of the
recorded costs and shows `_budget` is whatever was configured. -/
theorem remaining_budget_spec :
    (∀ st : CostTrackerState, get_remaining_budget st = none ↔ st.budget = none)
    ∧ (∀ (st : CostTrackerState) (b : ℚ), st.budget = some b →
        get_remaining_budget st = some (max 0 (b - st.total_cost)))
    ∧ (∀ (st : CostTrackerState) (q : ℚ), get_remaining_budget st = some q → 0 ≤ q)
    ∧ (∀ st : CostTrackerState, is_budget_exceeded st = true →
        get_remaining_budget st = some 0)
    ∧ (∀ (b : Option ℚ) (cb : Bool) (rs : List CostRecord),
        (runRecords (CostTrackerState.init b cb) rs).1.total_cost =
            (rs.map fun r => r.cost_usd).sum ∧
          (runRecords (CostTrackerState.init b cb) rs).1.budget = b) := by
  refine ⟨?_, ?_, ?_, ?_, ?_⟩
  · intro st
    cases hb : st.budget <;> simp [get_remaining_budget, hb]
  · intro st b hb
    simp [get_remaining_budget, hb]
  · intro st q h
    cases hb : st.budget with
    | none => simp [get_remaining_budget, hb] at h
    | some b =>
      simp only [get_remaining_budget, hb, Option.some.injEq] at h
      rw [← h]
      exact le_max_left 0 _
  · intro st h
    cases hb : st.budget with
    | none => simp [is_budget_exceeded, hb] at h
    | some b =>
      simp only [is_budget_exceeded, hb, decide_eq_true_eq] at h
      rw [get_remaining_budget, hb]
      have : b - st.total_cost ≤ 0 := by linarith
      simp [max_eq_left this]
  · intro b cb rs
    rw [runRecords_state]
    simp [CostTrackerState.init]

/-- Witness for C10's theorem: a tracker with budget 1 and total 2 has
`is_budget_exceeded` true and remaining budget 0, not a negative remainder. -/
theorem remaining_budget_spec_witness :
    get_remaining_budget ⟨some 1, false, [], 2⟩ = some 0 :=
  remaining_budget_spec.2.2.2.1 ⟨some 1, false, [], 2⟩ (by decide)

end CostTrackerM

namespace AdapterM

/-- The litellm exception classes imported at the top of
`litellm_adapter.py`.  Only the constructor tag matters to the retry
predicate, so exception payloads are not modelled. -/
inductive LiteLLMErr where
  | rateLimit
  | serviceUnavailable
  | timeout
  | authentication
  | contextWindowExceeded
  | contentPolicyViolation
  | notFound
  | badRequest
  | apiConnection
  | api
  | other
deriving DecidableEq

/-- `retry_if_exception_type((RateLimitError, ServiceUnavailableError))` from
the `@retry` decoration on `_execute_with_retry`. -/
def is_retryable : LiteLLMErr → Bool
  | .rateLimit => true
  | .serviceUnavailable => true
  | _ => false

/-- Tenacity's attempt loop under `stop=stop_after_attempt(...)` and
`reraise=True`: attempt `i` runs `f i`; on success the value is returned; on
failure, if the exception class satisfies the retry predicate and attempts
remain, the next attempt runs, otherwise the exception of this final attempt
is reraised.  The first argument of the recursion is the attempt number, the
second the number of attempts still permitted.  The second component of the
result is the index of the attempt that produced the outcome — the total
number of provider invocations made. -/
def attempt_loop (f : Nat → Except LiteLLMErr α) (i : Nat) :
    Nat → Except LiteLLMErr α × Nat
  | 0 => (f i, i)
  | 1 => (f i, i)
  | n + 2 =>
    match f i with
    | .ok v => (.ok v, i)
    | .error e =>
      if is_retryable e then attempt_loop f (i + 1) (n + 1) else (.error e, i)

/-- `LiteLLMAdapter._execute_with_retry`: `acompletion(**params)` under
`@retry(retry=retry_if_exception_type((RateLimitError,
ServiceUnavailableError)), stop=stop_after_attempt(3),
wait=wait_exponential(...), reraise=True)`.  `f i` is the outcome of the
`i`-th provider invocation (the backoff sleeps do not affect outcomes and are
not modelled). -/
def execute_with_retry (f : Nat → Except LiteLLMErr α) : Except LiteLLMErr α × Nat :=
  attempt_loop f 1 3

/-- Claim C4, confirmed.  `_execute_with_retry` makes between 1 and 3
attempts; every non-final attempt failed with a retryable (RateLimit or
ServiceUnavailable) exception; the outcome returned or reraised is exactly
that of the last attempt made (so a final failure reraises the last exception
unchanged); a first-attempt failure with a non-retryable exception — Timeout
included, per the last conjunct — propagates after exactly one provider
invocation. -/
theorem retry_policy_spec {α : Type} :
    ∀ f : Nat → Except LiteLLMErr α,
      (1 ≤ (execute_with_retry f).2 ∧ (execute_with_retry f).2 ≤ 3)
      ∧ (∀ j, 1 ≤ j → j < (execute_with_retry f).2 →
          ∃ e, f j = .error e ∧ is_retryable e = true)
      ∧ ((execute_with_retry f).1 = f (execute_with_retry f).2)
      ∧ (∀ e, f 1 = .error e → is_retryable e = false →
          execute_with_retry f = (.error e, 1))
      ∧ is_retryable .timeout = false := by
  intro f
  rcases h1 : f 1 with e1 | v1
  · rcases hr1 : is_retryable e1 with _ | _
    · have hres : execute_with_retry f = (.error e1, 1) := by
        simp [execute_with_retry, attempt_loop, h1, hr1]
      refine ⟨by rw [hres]; exact ⟨le_refl 1, by norm_num⟩, ?_, ?_, ?_, rfl⟩
      · intro j hj1 hj2; rw [hres] at hj2; omega
      · rw [hres, h1]
      · intro e he _
        injection he with hee
        subst hee
        exact hres
    · rcases h2 : f 2 with e2 | v2
      · rcases hr2 : is_retryable e2 with _ | _
        · have hres : execute_with_retry f = (.error e2, 2) := by
            simp [execute_with_retry, attempt_loop, h1, hr1, h2, hr2]
          refine ⟨by rw [hres]; exact ⟨by norm_num, by norm_num⟩, ?_, ?_, ?_, rfl⟩
          · intro j hj1 hj2
            rw [hres] at hj2
            have : j = 1 := by omega
            subst this
            exact ⟨e1, h1, hr1⟩
          · rw [hres, h2]
          · intro e he hre
            injection he with hee
            subst hee
            simp [hr1] at hre
        · have hres : execute_with_retry f = (f 3, 3) := by
            simp [execute_with_retry, attempt_loop, h1, hr1, h2, hr2]
          refine ⟨by rw [hres]; exact ⟨by norm_num, le_refl 3⟩, ?_, ?_, ?_, rfl⟩
          · intro j hj1 hj2
            rw [hres] at hj2
            rcases (by omega : j = 1 ∨ j = 2) with hj | hj <;> subst hj
            · exact ⟨e1, h1, hr1⟩
            · exact ⟨e2, h2, hr2⟩
          · rw [hres]
          · intro e he hre
            injection he with hee
            subst hee
            simp [hr1] at hre
      · have hres : execute_with_retry f = (.ok v2, 2) := by
          simp [execute_with_retry, attempt_loop, h1, hr1, h2]
        refine ⟨by rw [hres]; exact ⟨by norm_num, by norm_num⟩, ?_, ?_, ?_, rfl⟩
        · intro j hj1 hj2
          rw [hres] at hj2
          have : j = 1 := by omega
          subst this
          exact ⟨e1, h1, hr1⟩
        · rw [hres, h2]
        · intro e he hre
          injection he with hee
          subst hee
          simp [hr1] at hre
  · have hres : execute_with_retry f = (.ok v1, 1) := by
      simp [execute_with_retry, attempt_loop, h1]
    refine ⟨by rw [hres]; exact ⟨le_refl 1, by norm_num⟩, ?_, ?_, ?_, rfl⟩
    · intro j hj1 hj2; rw [hres] at hj2; omega
    · rw [hres, h1]
    · intro e he _
      exact Except.noConfusion he

/-- Witness for C4's theorem: a provider that always raises `Timeout` is
invoked exactly once and the timeout propagates un-retried. -/
theorem retry_policy_spec_witness :
    execute_with_retry (fun _ => (.error .timeout : Except LiteLLMErr Unit)) =
      (.error .timeout, 1) :=
  (retry_policy_spec (fun _ => (.error .timeout : Except LiteLLMErr Unit))).2.2.2.1
    .timeout rfl rfl

/-- `UsageInfo` of `adapters/base.py`. -/
structure UsageInfo where
  prompt_tokens : Int := 0
  completion_tokens : Int := 0
  total_tokens : Int := 0
deriving DecidableEq

/-- The `usage` object of a raw litellm provider response, as read by
`_parse_response`. -/
structure ProviderUsage where
  prompt_tokens : Int
  completion_tokens : Int
  total_tokens : Int
deriving DecidableEq

/-- The fields of a raw litellm provider response that `_parse_response`
reads: `choices[0].message.content`, `choices[0].finish_reason`, `usage`, and
`model`. -/
structure ProviderResponse where
  content0 : Option String
  finish_reason0 : Option String
  usage : ProviderUsage
  model : String
deriving DecidableEq

/-- `CompletionResponse` of `adapters/base.py`. -/
structure CompletionResponse where
  content : String
  model : String
  usage : UsageInfo
  finish_reason : String
  latency_ms : ℚ
  cost_usd : ℚ
deriving DecidableEq

/-- `LiteLLMAdapter._parse_response`.  `elapsed_ms` stands for
`(time.time() - start_time) * 1000` and `cost` for the result of litellm's
`completion_cost` (`0.0` when that call raises); both are external inputs.
Python's `content or ""` maps both `None` and `""` to `""`, which is
`Option.getD ""` on this model; likewise `finish_reason or "stop"` (`None` is
the only falsy value litellm produces there). -/
def parse_response (resp : ProviderResponse) (elapsed_ms cost : ℚ) : CompletionResponse :=
  { content := resp.content0.getD ""
    model := resp.model
    usage :=
      { prompt_tokens := resp.usage.prompt_tokens
        completion_tokens := resp.usage.completion_tokens
        total_tokens := resp.usage.total_tokens }
    finish_reason := resp.finish_reason0.getD "stop"
    latency_ms := elapsed_ms
    cost_usd := cost }

/-- Counterexample to claim C5 as stated: `_parse_response` copies the
provider's `total_tokens` verbatim; a provider response reporting
`usage = (1, 2, 5)` is emitted with `total_tokens = 5 ≠ 1 + 2`, so the sum is
not computed. -/
theorem usage_total_cex :
    (parse_response ⟨some "hi", some "stop", ⟨1, 2, 5⟩, "m"⟩ 0 0).usage.total_tokens ≠
      (parse_response ⟨some "hi", some "stop", ⟨1, 2, 5⟩, "m"⟩ 0 0).usage.prompt_tokens +
        (parse_response ⟨some "hi", some "stop", ⟨1, 2, 5⟩, "m"⟩ 0 0).usage.completion_tokens := by
  decide

/-- Claim C5, corrected.  The emitted usage is exactly the provider-reported
triple — no sum is computed — so `total_tokens = prompt_tokens +
completion_tokens` holds precisely for the provider responses that already
report the sum. -/
theorem parse_response_usage_spec :
    ∀ (resp : ProviderResponse) (e c : ℚ),
      (parse_response resp e c).usage =
          ⟨resp.usage.prompt_tokens, resp.usage.completion_tokens,
            resp.usage.total_tokens⟩
      ∧ (resp.usage.total_tokens =
            resp.usage.prompt_tokens + resp.usage.completion_tokens →
          (parse_response resp e c).usage.total_tokens =
            (parse_response resp e c).usage.prompt_tokens +
              (parse_response resp e c).usage.completion_tokens) :=
  fun _ _ _ => ⟨rfl, fun h => h⟩

/-- Witness for C5's theorem: a provider that does report the sum yields an
emitted response satisfying the invariant. -/
theorem parse_response_usage_spec_witness :
    (parse_response ⟨some "hi", some "stop", ⟨1, 2, 3⟩, "m"⟩ 0 0).usage.total_tokens =
      (parse_response ⟨some "hi", some "stop", ⟨1, 2, 3⟩, "m"⟩ 0 0).usage.prompt_tokens +
        (parse_response ⟨some "hi", some "stop", ⟨1, 2, 3⟩, "m"⟩ 0 0).usage.completion_tokens :=
  (parse_response_usage_spec ⟨some "hi", some "stop", ⟨1, 2, 3⟩, "m"⟩ 0 0).2 (by decide)

end AdapterM

namespace HealthM

/-- `HealthStatus` of `health.py`. -/
inductive HealthStatus where
  | healthy
  | unhealthy
  | degraded
  | unknown
deriving DecidableEq

/-- `ModelHealth` of `health.py`. -/
structure ModelHealth where
  model : String
  status : HealthStatus := .unknown
  latency_ms : ℚ := 0
  error : Option String := none
  last_check : ℚ := 0
  consecutive_failures : Nat := 0
deriving DecidableEq

/-- One probe of `LLMHealthChecker.check_model` (the part after the cache
check): a fresh `ModelHealth(model=model, last_check=time.time())` is built,
then the `for attempt in range(self._max_retries + 1)` loop runs.
`outcomes` lists, per attempt, `none` for a successful `acompletion` probe
and `some e` for a raised exception with message `e`; its length is
`max_retries + 1`.  `lat` stands for `(time.time() - start_time) * 1000` at
the moment the loop writes `latency_ms`. -/
def probe_loop (lat : ℚ) (h : ModelHealth) : List (Option String) → ModelHealth
  | [] => h
  | o :: rest =>
    match o with
    | none =>
      { h with status := .healthy, latency_ms := lat, error := none,
               consecutive_failures := 0 }
    | some e =>
      let h' := { h with error := some e,
                         consecutive_failures := h.consecutive_failures + 1 }
      match rest with
      | [] => { h' with status := .unhealthy, latency_ms := lat }
      | _ :: _ => probe_loop lat h' rest

/-- `LLMHealthChecker.check_model`: return the cached record when it is fresh
and `force` is not set, otherwise run the probe loop on a fresh record and
cache the result. -/
def check_model (cache : Option ModelHealth) (model : String) (force : Bool)
    (cache_ttl now lat : ℚ) (outcomes : List (Option String)) : ModelHealth :=
  match cache with
  | some cached =>
    if ¬ force ∧ now - cached.last_check < cache_ttl then cached
    else probe_loop lat { model := model, last_check := now } outcomes
  | none => probe_loop lat { model := model, last_check := now } outcomes

theorem probe_loop_all_fail (lat : ℚ) :
    ∀ (outcomes : List (Option String)) (h : ModelHealth),
      outcomes ≠ [] → (∀ o ∈ outcomes, o.isSome) →
      (probe_loop lat h outcomes).consecutive_failures =
        h.consecutive_failures + outcomes.length := by
  intro outcomes
  induction outcomes with
  | nil => intro h hne _; exact absurd rfl hne
  | cons o rest ih =>
    intro h _ hall
    rcases o with _ | e
    · exact absurd (hall none (List.mem_cons_self _ _)) (by simp)
    · match rest with
      | [] => simp [probe_loop]
      | r :: rest' =>
        have := ih { h with error := some e,
                            consecutive_failures := h.consecutive_failures + 1 }
          (by simp) (fun x hx => hall x (List.mem_cons_of_mem _ hx))
        simp only [probe_loop] at this ⊢
        rw [this]
        simp [List.length_cons]
        omega

theorem probe_loop_success (lat : ℚ) :
    ∀ (outcomes : List (Option String)) (h : ModelHealth),
      (∃ o ∈ outcomes, o = none) →
      (probe_loop lat h outcomes).consecutive_failures = 0 ∧
        (probe_loop lat h outcomes).status = .healthy := by
  intro outcomes
  induction outcomes with
  | nil => intro h hex; simp at hex
  | cons o rest ih =>
    intro h hex
    rcases o with _ | e
    · simp [probe_loop]
    · have hex' : ∃ o ∈ rest, o = none := by
        rcases hex with ⟨x, hx, hxn⟩
        rcases List.mem_cons.mp hx with h1 | h1
        · exact absurd (h1 ▸ hxn) (by simp)
        · exact ⟨x, h1, hxn⟩
      match rest with
      | [] => simp at hex'
      | r :: rest' =>
        have := ih { h with error := some e,
                            consecutive_failures := h.consecutive_failures + 1 } hex'
        simpa [probe_loop] using this

/-- Counterexample to claim C8 as stated: two consecutive forced probes that
each fail their single attempt (`max_retries = 0`).  The first probe caches a
record with `consecutive_failures = 1`; the claim says the second failed
probe carries that count over and increments it to 2, but `check_model`
starts from a fresh record, so the second probe also reports 1. -/
theorem consecutive_failures_cex :
    (check_model
        (some (check_model none "m" true 60 0 0 [some "boom"]))
        "m" true 60 0 0 [some "boom"]).consecutive_failures = 1 ∧
      ¬ ((check_model
            (some (check_model none "m" true 60 0 0 [some "boom"]))
            "m" true 60 0 0 [some "boom"]).consecutive_failures =
          (check_model none "m" true 60 0 0 [some "boom"]).consecutive_failures
            + 1) := by
  constructor
  · rfl
  · intro h
    simp [check_model, probe_loop] at h

/-- Claim C8, amended and proved.  A probing `check_model` call (forced, or
with no fresh cached record) recomputes `consecutive_failures` from a fresh
record: the result is the number of failed attempts of **this** probe —
`max_retries + 1` when every attempt fails, and `0` (with status healthy)
as soon as one attempt succeeds.  In particular the count of the previously
cached record is never carried over: the result is the same whatever record
was cached (last conjunct). -/
theorem consecutive_failures_spec :
    ∀ (model : String) (ttl now lat : ℚ) (outcomes : List (Option String)),
      outcomes ≠ [] →
      ((∀ o ∈ outcomes, o.isSome) →
        ∀ cache : Option ModelHealth,
          (check_model cache model true ttl now lat outcomes).consecutive_failures =
            outcomes.length)
      ∧ ((∃ o ∈ outcomes, o = none) →
        ∀ cache : Option ModelHealth,
          (check_model cache model true ttl now lat outcomes).consecutive_failures = 0 ∧
            (check_model cache model true ttl now lat outcomes).status = .healthy)
      ∧ (∀ c1 c2 : Option ModelHealth,
          check_model c1 model true ttl now lat outcomes =
            check_model c2 model true ttl now lat outcomes) := by
  intro model ttl now lat outcomes hne
  have hforce : ∀ cache : Option ModelHealth,
      check_model cache model true ttl now lat outcomes =
        probe_loop lat { model := model, last_check := now } outcomes := by
    intro cache
    rcases cache with _ | c
    · rfl
    · simp [check_model]
  refine ⟨?_, ?_, ?_⟩
  · intro hall cache
    rw [hforce]
    have := probe_loop_all_fail lat outcomes
      { model := model, last_check := now } hne hall
    simpa using this
  · intro hex cache
    rw [hforce]
    exact probe_loop_success lat outcomes { model := model, last_check := now } hex
  · intro c1 c2
    rw [hforce c1, hforce c2]

/-- Witness for C8's theorem: a single-attempt failing probe reports
`consecutive_failures = 1` regardless of the cached record. -/
theorem consecutive_failures_spec_witness :
    (check_model (some ⟨"m", .unhealthy, 0, some "old", 0, 7⟩)
        "m" true 60 0 0 [some "boom"]).consecutive_failures = 1 := by
  have h := (consecutive_failures_spec "m" 60 0 0 [some "boom"] (by simp)).1
    (by simp) (some ⟨"m", .unhealthy, 0, some "old", 0, 7⟩)
  simpa using h

end HealthM

namespace ContractsM

/-- `Message` of `adapters/base.py`: `role` and `content` are plain `str`
fields — the class declares **no** validator, so any role string is accepted. -/
structure Message where
  role : String
  content : String
deriving DecidableEq

/-- The constructor arguments of `CompletionRequest` (`adapters/base.py`). -/
structure CompletionRequestInput where
  model : String
  messages : List Message
  temperature : ℚ := 1
  max_tokens : Int := 4096
  stop : Option (List String) := none
  stream : Bool := false
deriving DecidableEq

/-- Pydantic validation of `CompletionRequest` at construction: the only
declared constraints are `temperature: ge=0, le=2` and `max_tokens: ge=1`.
No constraint is declared on `messages` (it may be empty) nor on any
message's `role`. -/
def completionRequestValid (r : CompletionRequestInput) : Bool :=
  decide (0 ≤ r.temperature) && decide (r.temperature ≤ 2) &&
    decide (1 ≤ r.max_tokens)

/-- `ExtendedMessage` of `adapters/types.py`: `role` is a plain `str` with no
validator.  The `content` union (`str | list[ContentPart] | None`) and the
tool-call fields carry no validation constraints relevant to the claim and
are modelled by their optional string cases. -/
structure ExtendedMessage where
  role : String
  content : Option String := none
  name : Option String := none
  tool_call_id : Option String := none
deriving DecidableEq

/-- The constructor arguments of `ExtendedCompletionRequest`
(`adapters/types.py`) that carry validation-relevant data. -/
structure ExtendedCompletionRequestInput where
  model : String
  messages : List ExtendedMessage
  temperature : ℚ := 1
  max_tokens : Int := 4096
  top_p : Option ℚ := none
  frequency_penalty : Option ℚ := none
  presence_penalty : Option ℚ := none
deriving DecidableEq

/-- An optional pydantic field with `ge=lo, le=hi`: `None` passes, a value
must lie in the range. -/
def optInRange (x : Option ℚ) (lo hi : ℚ) : Bool :=
  match x with
  | none => true
  | some v => decide (lo ≤ v) && decide (v ≤ hi)

/-- Pydantic validation of `ExtendedCompletionRequest` at construction:
`temperature: ge=0, le=2`, `max_tokens: ge=1`, `top_p: ge=0, le=1`,
`frequency_penalty: ge=-2, le=2`, `presence_penalty: ge=-2, le=2`.  Again no
constraint on `messages` or roles. -/
def extendedRequestValid (r : ExtendedCompletionRequestInput) : Bool :=
  completionRequestValid ⟨r.model, [], r.temperature, r.max_tokens, none, false⟩ &&
    optInRange r.top_p 0 1 &&
    optInRange r.frequency_penalty (-2) 2 &&
    optInRange r.presence_penalty (-2) 2

/-- Counterexample to claim C9 as stated: a `CompletionRequest` with an empty
`messages` list is accepted, and so is one whose only message has role
`"alien"` (neither `user` nor `system` first, role outside the stated set).
The claim's rejection of these inputs does not happen. -/
theorem request_validation_cex :
    completionRequestValid ⟨"m", [], 1, 4096, none, false⟩ = true ∧
      completionRequestValid ⟨"m", [⟨"alien", "hi"⟩], 1, 4096, none, false⟩ = true := by
  decide

/-- Claim C9, corrected.  Construction enforces exactly the numeric range
constraints — `temperature ∈ [0, 2]`, `max_tokens ≥ 1`, and on the extended
request `top_p ∈ [0, 1]`, `frequency_penalty, presence_penalty ∈ [-2, 2]`
when present — and accepts every input satisfying them; the `messages` list
(including emptiness, roles, and the first message's role) is not validated
at all: validity is invariant under replacing the message list. -/
theorem request_validation_spec :
    (∀ r : CompletionRequestInput,
      completionRequestValid r = true ↔
        0 ≤ r.temperature ∧ r.temperature ≤ 2 ∧ 1 ≤ r.max_tokens)
    ∧ (∀ (r : CompletionRequestInput) (msgs : List Message),
        completionRequestValid { r with messages := msgs } =
          completionRequestValid r)
    ∧ (∀ r : ExtendedCompletionRequestInput,
        extendedRequestValid r = true ↔
          0 ≤ r.temperature ∧ r.temperature ≤ 2 ∧ 1 ≤ r.max_tokens ∧
            (∀ v, r.top_p = some v → 0 ≤ v ∧ v ≤ 1) ∧
            (∀ v, r.frequency_penalty = some v → -2 ≤ v ∧ v ≤ 2) ∧
            (∀ v, r.presence_penalty = some v → -2 ≤ v ∧ v ≤ 2))
    ∧ (∀ (r : ExtendedCompletionRequestInput) (msgs : List ExtendedMessage),
        extendedRequestValid { r with messages := msgs } =
          extendedRequestValid r) := by
  refine ⟨?_, ?_, ?_, ?_⟩
  · intro r
    simp [completionRequestValid, and_assoc]
  · intro r msgs; rfl
  · intro r
    rcases htp : r.top_p with _ | v1 <;>
      rcases hfp : r.frequency_penalty with _ | v2 <;>
        rcases hpp : r.presence_penalty with _ | v3 <;>
          simp [extendedRequestValid, completionRequestValid, optInRange,
            htp, hfp, hpp, and_assoc]
  · intro r msgs; rfl

/-- Witness for C9's theorem: the default-range request is accepted. -/
theorem request_validation_spec_witness :
    completionRequestValid ⟨"m", [], 1, 4096, none, false⟩ = true :=
  (request_validation_spec.1 ⟨"m", [], 1, 4096, none, false⟩).mpr
    (by norm_num)

end ContractsM

namespace MemCacheM

variable {ρ α : Type}

/-- `MemoryLLMCache.get` at the level of the `OrderedDict` state (front of
the list is the least-recently-used end, `popitem(last=False)` side): on a
hit, `move_to_end(key)` moves the entry to the back unchanged and the stored
response is returned; on a miss the state is unchanged and `None` returned. -/
def od_get (c : List (String × α)) (key : String) : Option α × List (String × α) :=
  match c.find? (fun p => decide (p.1 = key)) with
  | some p => (some p.2, (c.eraseP fun q => decide (q.1 = key)) ++ [p])
  | none => (none, c)

/-- `MemoryLLMCache.set` at the level of the `OrderedDict` state: whenever
the current size has reached `max_size`, evict the front entry
(`popitem(last=False)`), then run the dict assignment
`self._cache[key] = response` — which updates an existing key in place and
appends a fresh key at the back. -/
def od_set (max_size : Nat) (c : List (String × α)) (key : String) (v : α) :
    List (String × α) :=
  let c1 := if max_size ≤ c.length then c.drop 1 else c
  if c1.any (fun p => p.1 = key) then
    c1.map (fun p => if p.1 = key then (p.1, v) else p)
  else
    c1 ++ [(key, v)]

/-- `MemoryLLMCache.get(request)`: the key is `self._build_cache_key(request)`,
abstracted here as `keyOf`. -/
def cache_get (keyOf : ρ → String) (c : List (String × α)) (r : ρ) :
    Option α × List (String × α) :=
  od_get c (keyOf r)

/-- `MemoryLLMCache.set(request, response)`. -/
def cache_set (keyOf : ρ → String) (max_size : Nat) (c : List (String × α))
    (r : ρ) (v : α) : List (String × α) :=
  od_set max_size c (keyOf r) v

/-- A sequence of `set` operations. -/
def run_cache_sets (keyOf : ρ → String) (max_size : Nat)
    (c : List (String × α)) (ps : List (ρ × α)) : List (String × α) :=
  ps.foldl (fun acc q => cache_set keyOf max_size acc q.1 q.2) c

/-- The same sequence at key level. -/
def run_sets (max_size : Nat) (c : List (String × α))
    (ps : List (String × α)) : List (String × α) :=
  ps.foldl (fun acc q => od_set max_size acc q.1 q.2) c

theorem run_cache_sets_eq (keyOf : ρ → String) (max_size : Nat)
    (c : List (String × α)) (ps : List (ρ × α)) :
    run_cache_sets keyOf max_size c ps =
      run_sets max_size c (ps.map fun q => (keyOf q.1, q.2)) := by
  unfold run_cache_sets run_sets
  rw [List.foldl_map]
  rfl

theorem find?_of_mem_nodup (c : List (String × α)) (k : String) (v : α)
    (hnd : (c.map Prod.fst).Nodup) (hm : (k, v) ∈ c) :
    c.find? (fun p => decide (p.1 = k)) = some (k, v) := by
  induction c with
  | nil => simp at hm
  | cons p c ih =>
    rcases List.mem_cons.mp hm with h | h
    · subst h
      simp [List.find?_cons]
    · have hnd' := hnd
      rw [List.map_cons, List.nodup_cons] at hnd'
      have hp1 : ¬ p.1 = k := by
        intro hk
        exact hnd'.1 (hk ▸ (List.mem_map.mpr ⟨(k, v), h, rfl⟩))
      rw [List.find?_cons, decide_eq_false hp1]
      exact ih hnd'.2 h

theorem find?_none_of_no_key (c : List (String × α)) (k : String)
    (h : ∀ p ∈ c, ¬ p.1 = k) :
    c.find? (fun p => decide (p.1 = k)) = none :=
  List.find?_eq_none.mpr fun p hp => by simpa using h p hp

theorem run_sets_distinct (cap : Nat) (hcap : 1 ≤ cap) (ps : List (String × α))
    (hnd : (ps.map Prod.fst).Nodup) :
    run_sets cap [] ps = ps.drop (ps.length - cap) := by
  induction ps using List.reverseRecOn with
  | nil => simp [run_sets]
  | append_singleton ps p ih =>
    have hnd' : (ps.map Prod.fst).Nodup := by
      rw [List.map_append] at hnd
      exact (List.nodup_append.mp hnd).1
    have hfresh : p.1 ∉ ps.map Prod.fst := by
      rw [List.map_append] at hnd
      have := (List.nodup_append.mp hnd).2.2
      intro hmem
      exact this hmem (by simp)
    have hstep : run_sets cap [] (ps ++ [p]) =
        od_set cap (run_sets cap [] ps) p.1 p.2 := by
      unfold run_sets
      rw [List.foldl_append]
      rfl
    rw [hstep, ih hnd']
    have hsub : ∀ q ∈ ps.drop (ps.length - cap), q ∈ ps :=
      fun q hq => (List.drop_subset _ _) hq
    have hany : ((ps.drop (ps.length - cap)).any fun q => q.1 = p.1) = false := by
      rw [List.any_eq_false]
      intro q hq
      simp only [decide_eq_true_eq]
      intro hqp
      exact hfresh (List.mem_map.mpr ⟨q, hsub q hq, hqp⟩)
    by_cases hlt : ps.length < cap
    · have h0 : ps.length - cap = 0 := Nat.sub_eq_zero_of_le (Nat.le_of_lt hlt)
      have h0' : ps.length + 1 - cap = 0 := Nat.sub_eq_zero_of_le hlt
      have hnotle : ¬ cap ≤ ps.length := by omega
      rw [h0, List.drop_zero] at hany
      unfold od_set
      simp [hnotle, hany, h0, h0']
    · have hge : cap ≤ ps.length := Nat.le_of_not_lt hlt
      have hlen : (ps.drop (ps.length - cap)).length = cap := by
        rw [List.length_drop]
        omega
      unfold od_set
      simp only [hlen, le_refl, if_true, hany]
      have hdrop1 : (ps.drop (ps.length - cap)).drop 1 =
          ps.drop (ps.length - cap + 1) := by
        rw [List.drop_drop]
      have hany1 : (((ps.drop (ps.length - cap)).drop 1).any
          fun q => q.1 = p.1) = false := by
        rw [List.any_eq_false]
        intro q hq
        simp only [decide_eq_true_eq]
        intro hqp
        exact hfresh (List.mem_map.mpr
          ⟨q, hsub q ((List.drop_subset _ _) hq), hqp⟩)
      simp only [hany1, Bool.false_eq_true, if_false]
      rw [hdrop1, List.length_append, List.length_singleton]
      have harith : ps.length + 1 - cap = ps.length - cap + 1 := by omega
      rw [harith, List.drop_append_of_le_length (by omega)]

theorem find?_append_none {β : Type} {p : β → Bool} (l1 l2 : List β)
    (h : l1.find? p = none) : (l1 ++ l2).find? p = l2.find? p := by
  induction l1 with
  | nil => rfl
  | cons b l1 ih =>
    rw [List.find?_cons] at h
    rcases hb : p b with _ | _
    · rw [List.cons_append, List.find?_cons, hb]
      exact ih (by rw [hb] at h; exact h)
    · rw [hb] at h; cases h

theorem eraseP_no_key (c : List (String × α)) (k : String)
    (hnd : (c.map Prod.fst).Nodup) :
    ∀ q ∈ c.eraseP (fun q => decide (q.1 = k)), ¬ q.1 = k := by
  induction c with
  | nil => intro q hq; simp [List.eraseP_nil] at hq
  | cons p c ih =>
    have hnd' := hnd
    rw [List.map_cons, List.nodup_cons] at hnd'
    intro q hq
    rcases hpk : decide (p.1 = k) with _ | _
    · rw [List.eraseP_cons, hpk] at hq
      simp only [cond_false] at hq
      rcases List.mem_cons.mp hq with h | h
      · subst h; simpa using hpk
      · exact ih hnd'.2 q h
    · rw [List.eraseP_cons, hpk] at hq
      simp only [cond_true] at hq
      have hp1 : p.1 = k := of_decide_eq_true hpk
      intro hqk
      exact hnd'.1 (hp1 ▸ hqk ▸ List.mem_map.mpr ⟨q, hq, rfl⟩)

/-- Counterexample to claim C3 as stated: with `max_size = 1`, the entry most
recently read **is** the one evicted by the next insertion of a fresh key.
Insert `"a"`, read it (a hit), insert fresh `"b"`: the just-read `"a"` is
evicted. -/
theorem lru_promotion_cex :
    (cache_get (fun s : String => s)
        (cache_set (fun s : String => s) 1 [] "a" (0 : Nat)) "a").1 = some 0 ∧
      (cache_get (fun s : String => s)
          (cache_set (fun s : String => s) 1
            (cache_get (fun s : String => s)
              (cache_set (fun s : String => s) 1 [] "a" (0 : Nat)) "a").2
            "b" 1) "a").1 = none := by
  decide

/-- Claim C3, corrected.  Conjunct 1 (unchanged from the claim): with
`max_size = k ≥ 1`, after `k+1` `set` operations on requests with pairwise
distinct cache keys, `get` on the first request misses and `get` on each
later request returns its stored response.  Conjunct 2 (amended): a `get` hit
promotes its entry to most-recently-used, so the entry most recently read is
not the one evicted by the next insertion of a fresh key **provided
`max_size ≥ 2`** — with `max_size = 1` the promoted entry is the only entry
and is evicted (see the counterexample). -/
theorem lru_eviction_amended {ρ α : Type} :
    (∀ (keyOf : ρ → String) (k : Nat) (ps : List (ρ × α)),
      1 ≤ k → ps.length = k + 1 → (ps.map fun q => keyOf q.1).Nodup →
      (∀ q0, ps.head? = some q0 →
        (cache_get keyOf (run_cache_sets keyOf k [] ps) q0.1).1 = none)
      ∧ ∀ q ∈ ps.tail,
          (cache_get keyOf (run_cache_sets keyOf k [] ps) q.1).1 = some q.2)
    ∧ (∀ (keyOf : ρ → String) (cap : Nat) (c : List (String × α)) (r r2 : ρ)
        (v : α) (v2 : α),
        2 ≤ cap → c.length ≤ cap → (c.map Prod.fst).Nodup →
        (cache_get keyOf c r).1 = some v →
        keyOf r2 ∉ c.map Prod.fst →
        (cache_get keyOf
            (cache_set keyOf cap (cache_get keyOf c r).2 r2 v2) r).1 = some v) := by
  constructor
  · intro keyOf k ps hk hlen hnd
    rcases ps with _ | ⟨q0, ps'⟩
    · exact absurd hlen (by simp)
    · have hndk : (((q0 :: ps').map fun q => (keyOf q.1, q.2)).map Prod.fst).Nodup := by
        rw [List.map_map]
        exact hnd
      have hrun : run_cache_sets keyOf k [] (q0 :: ps') =
          ((q0 :: ps').map fun q => (keyOf q.1, q.2)).drop 1 := by
        rw [run_cache_sets_eq, run_sets_distinct k hk _ hndk]
        congr 1
        rw [List.length_map, hlen]
        omega
      have hndk' := hndk
      simp only [List.map_cons, List.nodup_cons] at hndk'
      constructor
      · intro q1 hq1
        rw [List.head?_cons, Option.some.injEq] at hq1
        subst hq1
        rw [hrun]
        simp only [List.map_cons, List.drop_succ_cons, List.drop_zero]
        unfold cache_get od_get
        rw [find?_none_of_no_key]
        intro pe hpe hpk
        exact hndk'.1 (hpk ▸ List.mem_map.mpr ⟨pe, hpe, rfl⟩)
      · intro q hq
        rw [hrun]
        simp only [List.map_cons, List.drop_succ_cons, List.drop_zero]
        unfold cache_get od_get
        rw [find?_of_mem_nodup _ _ q.2 (by simpa using hndk'.2)
          (List.mem_map.mpr ⟨q, by simpa using hq, rfl⟩)]
  · intro keyOf cap c r r2 v v2 hcap hclen hnd hhit hfresh
    unfold cache_get od_get at hhit
    rcases hfind : c.find? (fun q => decide (q.1 = keyOf r)) with _ | pe
    · rw [hfind] at hhit; cases hhit
    · rw [hfind] at hhit
      have hpv : pe.2 = v := by
        simpa using hhit
      have hfs := List.find?_some hfind
      have hpkey : pe.1 = keyOf r := by simpa using hfs
      have hpmem : pe ∈ c := List.mem_of_find?_eq_some hfind
      have hkeymem : keyOf r ∈ c.map Prod.fst :=
        hpkey ▸ List.mem_map.mpr ⟨pe, hpmem, rfl⟩
      have hk2key : ¬ keyOf r2 = keyOf r := fun hh => hfresh (hh ▸ hkeymem)
      have hclen1 : 1 ≤ c.length := List.length_pos.mpr
        (fun hnil => by subst hnil; cases hpmem)
      have hElen : (c.eraseP fun q => decide (q.1 = keyOf r)).length =
          c.length - 1 :=
        List.length_eraseP_of_mem hpmem (by simpa using hpkey)
      have hEnokey := eraseP_no_key c (keyOf r) hnd
      have hEsub : ∀ q ∈ c.eraseP fun q => decide (q.1 = keyOf r), q ∈ c :=
        fun q hq => List.eraseP_subset _ hq
      -- the state after the hit
      unfold cache_get cache_set od_get
      set E := c.eraseP fun q => decide (q.1 = keyOf r) with hE
      have hstate : (match c.find? (fun q : String × α => decide (q.1 = keyOf r)) with
          | some q => ((some q.2 : Option α), E ++ [q])
          | none => (none, c)).2 = E ++ [pe] := by
        rw [hfind]
      rw [hstate]
      -- evaluate od_set on the post-hit state
      have hplen : (E ++ [pe]).length = c.length := by
        rw [List.length_append, List.length_singleton, hElen]
        omega
      have hnok2 : ∀ q ∈ E ++ [pe], ¬ q.1 = keyOf r2 := by
        intro q hq hqk
        rcases List.mem_append.mp hq with h | h
        · exact hfresh (hqk ▸ List.mem_map.mpr ⟨q, hEsub q h, rfl⟩)
        · have : q = pe := by simpa using h
          subst this
          exact hk2key (hqk ▸ hpkey)
      unfold od_set
      by_cases hfull : cap ≤ (E ++ [pe]).length
      · have hE1 : 1 ≤ E.length := by
          rw [hElen]
          rw [hplen] at hfull
          omega
        have hdrop : (E ++ [pe]).drop 1 = E.drop 1 ++ [pe] :=
          List.drop_append_of_le_length hE1
        have hany : (((E ++ [pe]).drop 1).any fun q => q.1 = keyOf r2) = false := by
          rw [List.any_eq_false]
          intro q hq
          simp only [decide_eq_true_eq]
          exact hnok2 q ((List.drop_subset _ _) hq)
        have hdnone : (E.drop 1).find? (fun q => decide (q.1 = keyOf r)) = none :=
          find?_none_of_no_key _ _ fun q hq =>
            hEnokey q ((List.drop_subset _ _) hq)
        simp only [hfull, if_true, hany, Bool.false_eq_true, if_false]
        rw [hdrop, List.append_assoc, find?_append_none _ _ hdnone]
        simp [List.find?_cons, hpkey, hpv]
      · have hany : ((E ++ [pe]).any fun q => q.1 = keyOf r2) = false := by
          rw [List.any_eq_false]
          intro q hq
          simp only [decide_eq_true_eq]
          exact hnok2 q hq
        have hdnone : E.find? (fun q => decide (q.1 = keyOf r)) = none :=
          find?_none_of_no_key _ _ hEnokey
        simp only [hfull, if_false, hany, Bool.false_eq_true]
        rw [List.append_assoc, find?_append_none _ _ hdnone]
        simp [List.find?_cons, hpkey, hpv]

/-- Witness for C3's theorem: capacity 1, two distinct keys — the first is
evicted, the second readable. -/
theorem lru_eviction_amended_witness :
    (cache_get (fun s : String => s)
        (run_cache_sets (fun s : String => s) 1 [] [("a", (1 : Nat)), ("b", 2)])
        "a").1 = none := by
  have h := (lru_eviction_amended.1 (fun s : String => s) 1
    [("a", (1 : Nat)), ("b", 2)] (by norm_num) (by simp) (by simp)).1
    ("a", 1) rfl
  simpa using h

end MemCacheM

namespace RateLimiterM

/-- `ModelRateLimits` of `rate_limiter.py`. -/
structure ModelRateLimits where
  rpm : Int := 60
  tpm : Int := 100000
deriving DecidableEq

/-- `RateLimitResult` of `rate_limiter.py`. -/
structure RateLimitResult where
  allowed : Bool
  wait_seconds : ℚ := 0
  reason : Option String := none
deriving DecidableEq

/-- `MemoryRateLimiter._WindowData`: the per-model sliding-window state. -/
structure WindowData where
  requests : List ℚ := []
  tokens : Int := 0
  window_start : ℚ := 0
deriving DecidableEq

/-- `MemoryRateLimiter._clean_window` at time `now`: keep the request
timestamps strictly inside the 60-second window, and reset the token counter
(setting `window_start := now`) when its window start drifted past 60 s. -/
def clean_window (d : WindowData) (now : ℚ) : WindowData :=
  if d.window_start < now - 60 then
    ⟨d.requests.filter fun t => decide (now - 60 < t), 0, now⟩
  else
    ⟨d.requests.filter fun t => decide (now - 60 < t), d.tokens, d.window_start⟩

/-- Python's `min(lst)` guarded by `if data.requests else now`. -/
def listMin (l : List ℚ) (dflt : ℚ) : ℚ :=
  match l with
  | [] => dflt
  | h :: t => t.foldl min h

/-- `MemoryRateLimiter.check`: clean the window (the mutation is returned as
the second component), deny with reason `"rpm"` and
`wait = max(0, 60 - (now - oldest))` when the window already holds `rpm`
requests, else deny with reason `"tpm"` and `wait = 60` when
`tokens + estimated_tokens` exceeds `tpm`, else allow. -/
def check (limits : ModelRateLimits) (d : WindowData) (now : ℚ)
    (estimated_tokens : Int) : RateLimitResult × WindowData :=
  if limits.rpm ≤ ((clean_window d now).requests.length : Int) then
    (⟨false, max 0 (60 - (now - listMin (clean_window d now).requests now)),
        some "rpm"⟩,
      clean_window d now)
  else if limits.tpm < (clean_window d now).tokens + estimated_tokens then
    (⟨false, 60, some "tpm"⟩, clean_window d now)
  else
    (⟨true, 0, none⟩, clean_window d now)

/-- `MemoryRateLimiter.record`: clean the window, then append the current
timestamp and add the actual tokens. -/
def record (d : WindowData) (now : ℚ) (tokens : Int) : WindowData :=
  ⟨(clean_window d now).requests ++ [now], (clean_window d now).tokens + tokens,
    (clean_window d now).window_start⟩

/-- A `check`-then-`record` pair per element: `(t, est, tok)` runs
`check(model, est)` at time `t` and then `record(model, tok)` at the same
time, as in the admission scenario of the claim. -/
def runPairs (limits : ModelRateLimits) :
    WindowData → List (ℚ × Int × Int) → WindowData × List RateLimitResult
  | d, [] => (d, [])
  | d, (t, est, tok) :: rest =>
    let p := check limits d t est
    let d2 := record p.2 t tok
    let q := runPairs limits d2 rest
    (q.1, p.1 :: q.2)

theorem clean_window_requests (d : WindowData) (now : ℚ)
    (h : ∀ t ∈ d.requests, now - 60 < t) :
    (clean_window d now).requests = d.requests := by
  have hf : d.requests.filter (fun t => decide (now - 60 < t)) = d.requests :=
    List.filter_eq_self.mpr fun t ht => by simpa using h t ht
  by_cases hws : d.window_start < now - 60 <;> simp [clean_window, hws, hf]

theorem clean_window_tokens_le (d : WindowData) (now : ℚ) (hd : 0 ≤ d.tokens) :
    0 ≤ (clean_window d now).tokens ∧ (clean_window d now).tokens ≤ d.tokens := by
  by_cases hws : d.window_start < now - 60
  · simp only [clean_window, if_pos hws]
    exact ⟨le_refl 0, hd⟩
  · simp only [clean_window, if_neg hws]
    exact ⟨hd, le_refl _⟩

theorem foldl_min_mem (t : List ℚ) : ∀ a : ℚ, t.foldl min a = a ∨ t.foldl min a ∈ t := by
  induction t with
  | nil => intro a; left; rfl
  | cons x t ih =>
    intro a
    rw [List.foldl_cons]
    rcases ih (min a x) with h | h
    · rcases min_choice a x with hm | hm
      · left; rw [h, hm]
      · right; rw [h, hm]; exact List.mem_cons_self _ _
    · right; exact List.mem_cons_of_mem _ h

theorem listMin_cases (l : List ℚ) (dflt : ℚ) :
    listMin l dflt = dflt ∨ listMin l dflt ∈ l := by
  cases l with
  | nil => left; rfl
  | cons h t =>
    rcases foldl_min_mem t h with hh | hh
    · right; rw [listMin, hh]; exact List.mem_cons_self _ _
    · right; rw [listMin]; exact List.mem_cons_of_mem _ hh

theorem runPairs_spec (N : Nat) (T : Int) (now : ℚ) :
    ∀ (rest : List (ℚ × Int × Int)) (d : WindowData),
      (∀ t ∈ d.requests, now - 60 < t ∧ t ≤ now) →
      (∀ p ∈ rest, now - 60 < p.1 ∧ p.1 ≤ now) →
      d.requests.length + rest.length = N →
      0 ≤ d.tokens →
      (∀ p ∈ rest, 0 ≤ p.2.2) →
      (∀ p ∈ rest, d.tokens + (rest.map fun q => q.2.2).sum + p.2.1 ≤ T) →
      (runPairs ⟨(N : Int), T⟩ d rest).1.requests =
          d.requests ++ rest.map (fun p => p.1)
      ∧ 0 ≤ (runPairs ⟨(N : Int), T⟩ d rest).1.tokens
      ∧ (∀ t ∈ (runPairs ⟨(N : Int), T⟩ d rest).1.requests,
          now - 60 < t ∧ t ≤ now)
      ∧ ∀ res ∈ (runPairs ⟨(N : Int), T⟩ d rest).2, res = ⟨true, 0, none⟩ := by
  intro rest
  induction rest with
  | nil =>
    intro d hdw _ _ hdt _ _
    refine ⟨by simp [runPairs], hdt, ?_, by simp [runPairs]⟩
    simpa [runPairs] using hdw
  | cons p rest ih =>
    rcases p with ⟨t, est, tok⟩
    intro d hdw hrw hlen hdt htoks hbound
    have hwt : now - 60 < t ∧ t ≤ now := hrw _ (List.mem_cons_self _ _)
    have hkeep : ∀ u ∈ d.requests, t - 60 < u := by
      intro u hu
      have h1 := (hdw u hu).1
      have h2 := hwt.2
      linarith
    have hcreq : (clean_window d t).requests = d.requests :=
      clean_window_requests d t hkeep
    have hctok := clean_window_tokens_le d t hdt
    have hsum0 : 0 ≤ (rest.map fun q => q.2.2).sum :=
      List.sum_nonneg fun x hx => by
        rcases List.mem_map.mp hx with ⟨q, hq, rfl⟩
        exact htoks q (List.mem_cons_of_mem _ hq)
    have htok0 : 0 ≤ tok := htoks _ (List.mem_cons_self _ _)
    have hlt : ((clean_window d t).requests.length : Int) < (N : Int) := by
      rw [hcreq]
      have : d.requests.length < N := by
        simp only [List.length_cons] at hlen
        omega
      exact_mod_cast this
    have hb0 := hbound _ (List.mem_cons_self _ _)
    rw [List.map_cons, List.sum_cons] at hb0
    have htpm : ¬ ((T : Int) < (clean_window d t).tokens + est) := by
      push_neg
      have := hctok.2
      linarith
    have hcheck : check ⟨(N : Int), T⟩ d t est = (⟨true, 0, none⟩, clean_window d t) := by
      unfold check
      rw [if_neg (not_le.mpr hlt), if_neg htpm]
    -- the record step
    have hkeep2 : ∀ u ∈ (clean_window d t).requests, t - 60 < u := by
      rw [hcreq]; exact hkeep
    have hcreq2 : (clean_window (clean_window d t) t).requests = d.requests := by
      rw [clean_window_requests _ t hkeep2, hcreq]
    have hctok2 := clean_window_tokens_le (clean_window d t) t hctok.1
    have hd2 : record (clean_window d t) t tok =
        ⟨d.requests ++ [t], (clean_window (clean_window d t) t).tokens + tok,
          (clean_window (clean_window d t) t).window_start⟩ := by
      unfold record
      rw [clean_window_requests _ t hkeep2, hcreq]
    set d2 : WindowData :=
      ⟨d.requests ++ [t], (clean_window (clean_window d t) t).tokens + tok,
        (clean_window (clean_window d t) t).window_start⟩ with hd2def
    have hih := ih d2
      (by
        intro u hu
        rcases List.mem_append.mp hu with h | h
        · exact hdw u h
        · have : u = t := by simpa using h
          subst this
          exact hwt)
      (fun q hq => hrw q (List.mem_cons_of_mem _ hq))
      (by
        show (d.requests ++ [t]).length + rest.length = N
        rw [List.length_append, List.length_singleton]
        simp only [List.length_cons] at hlen
        omega)
      (by
        show 0 ≤ (clean_window (clean_window d t) t).tokens + tok
        have := hctok2.1
        omega)
      (fun q hq => htoks q (List.mem_cons_of_mem _ hq))
      (by
        intro q hq
        show (clean_window (clean_window d t) t).tokens + tok +
            (rest.map fun q => q.2.2).sum + q.2.1 ≤ T
        have h1 := hctok2.2
        have h2 := hctok.2
        have h3 := hbound q (List.mem_cons_of_mem _ hq)
        rw [List.map_cons, List.sum_cons] at h3
        linarith)
    -- assemble
    have hrun : runPairs ⟨(N : Int), T⟩ d ((t, est, tok) :: rest) =
        ((runPairs ⟨(N : Int), T⟩ d2 rest).1,
          ⟨true, 0, none⟩ :: (runPairs ⟨(N : Int), T⟩ d2 rest).2) := by
      show ((runPairs _ (record (check ⟨(N : Int), T⟩ d t est).2 t tok) rest).1,
          (check ⟨(N : Int), T⟩ d t est).1 ::
            (runPairs _ (record (check ⟨(N : Int), T⟩ d t est).2 t tok) rest).2) = _
      rw [hcheck, hd2]
    rw [hrun]
    refine ⟨?_, hih.2.1, hih.2.2.1, ?_⟩
    · rw [hih.1, hd2def]
      simp [List.append_assoc]
    · intro res hres
      rcases List.mem_cons.mp hres with h | h
      · exact h
      · exact hih.2.2.2 res h

/-- Claim C2, confirmed.  Conjunct 1: for `rpm = N`, `tpm = T`, after `N`
admitted check-then-record pairs within one 60-second window anchored at
`now` (timestamps in `(now-60, now]`, nonnegative token counts whose total
plus each estimate stays within `T`), every one of the `N` checks is allowed,
and the `(N+1)`-th check at `now` is denied with reason `"rpm"` and
`wait_seconds = max(0, 60 - (now - oldest))` where `oldest` is the oldest
recorded timestamp still in the window; while that oldest request is
strictly less than 60 s old the wait lies in `(0, 60]`.  Conjuncts 2 and 3:
when the RPM count is below the limit, a token overrun is denied with reason
`"tpm"` and `wait_seconds = 60`, and otherwise the check is allowed. -/
theorem rate_limiter_admission :
    (∀ (N : Nat) (T : Int) (now : ℚ) (pairs : List (ℚ × Int × Int)) (est2 : Int),
      pairs.length = N →
      (∀ p ∈ pairs, now - 60 < p.1 ∧ p.1 ≤ now) →
      (∀ p ∈ pairs, 0 ≤ p.2.2) →
      (∀ p ∈ pairs, (pairs.map fun q => q.2.2).sum + p.2.1 ≤ T) →
      (∀ res ∈ (runPairs ⟨(N : Int), T⟩ ⟨[], 0, 0⟩ pairs).2, res = ⟨true, 0, none⟩)
      ∧ (check ⟨(N : Int), T⟩ (runPairs ⟨(N : Int), T⟩ ⟨[], 0, 0⟩ pairs).1 now est2).1 =
          ⟨false, max 0 (60 - (now - listMin (pairs.map fun p => p.1) now)),
            some "rpm"⟩
      ∧ (now - listMin (pairs.map fun p => p.1) now < 60 →
          0 < max 0 (60 - (now - listMin (pairs.map fun p => p.1) now)) ∧
            max 0 (60 - (now - listMin (pairs.map fun p => p.1) now)) ≤ 60))
    ∧ (∀ (limits : ModelRateLimits) (d : WindowData) (now : ℚ) (est : Int),
        ((clean_window d now).requests.length : Int) < limits.rpm →
        limits.tpm < (clean_window d now).tokens + est →
        (check limits d now est).1 = ⟨false, 60, some "tpm"⟩)
    ∧ (∀ (limits : ModelRateLimits) (d : WindowData) (now : ℚ) (est : Int),
        ((clean_window d now).requests.length : Int) < limits.rpm →
        (clean_window d now).tokens + est ≤ limits.tpm →
        (check limits d now est).1 = ⟨true, 0, none⟩) := by
  refine ⟨?_, ?_, ?_⟩
  · intro N T now pairs est2 hlen hwin htoks hbound
    have hspec := runPairs_spec N T now pairs ⟨[], 0, 0⟩
      (by intro u hu; simp at hu)
      hwin
      (by simpa using hlen)
      (le_refl 0)
      htoks
      (by simpa using hbound)
    set s := (runPairs ⟨(N : Int), T⟩ ⟨[], 0, 0⟩ pairs).1 with hs
    have hsreq : s.requests = pairs.map fun p => p.1 := by
      rw [hs, hspec.1]
      simp
    refine ⟨hspec.2.2.2, ?_, ?_⟩
    · have hkeep : ∀ u ∈ s.requests, now - 60 < u := by
        intro u hu
        exact (hspec.2.2.1 u (hs ▸ hu)).1
      have hcreq : (clean_window s now).requests = s.requests :=
        clean_window_requests s now hkeep
      have hge : (N : Int) ≤ ((clean_window s now).requests.length : Int) := by
        rw [hcreq, hsreq, List.length_map, hlen]
      unfold check
      rw [if_pos hge, hcreq, hsreq]
    · intro hlt60
      have holdle : listMin (pairs.map fun p => p.1) now ≤ now := by
        rcases listMin_cases (pairs.map fun p => p.1) now with h | h
        · rw [h]
        · rcases List.mem_map.mp h with ⟨q, hq, hqe⟩
          rw [← hqe]
          exact (hwin q hq).2
      constructor
      · have hx : 0 < 60 - (now - listMin (pairs.map fun p => p.1) now) := by
          linarith
        exact lt_max_iff.mpr (Or.inr hx)
      · have hx : 60 - (now - listMin (pairs.map fun p => p.1) now) ≤ 60 := by
          linarith
        exact max_le_iff.mpr ⟨by norm_num, hx⟩
  · intro limits d now est hlt htpm
    unfold check
    rw [if_neg (not_le.mpr hlt), if_pos htpm]
  · intro limits d now est hlt htpm
    unfold check
    rw [if_neg (not_le.mpr hlt), if_neg (not_lt.mpr htpm)]

/-- Witness for C2's theorem: `rpm = 1`, one admitted pair at `t = 100`, then
the second check at `now = 100` is denied with reason `"rpm"` and a 60 s
wait. -/
theorem rate_limiter_admission_witness :
    (check ⟨((1 : Nat) : Int), 100⟩
        (runPairs ⟨((1 : Nat) : Int), 100⟩ ⟨[], 0, 0⟩ [(100, 0, 0)]).1 100 0).1 =
      ⟨false, 60, some "rpm"⟩ := by
  have h := (rate_limiter_admission.1 1 100 100 [(100, 0, 0)] 0
    (by simp)
    (by intro p hp; simp at hp; subst hp; norm_num)
    (by intro p hp; simp at hp; subst hp; norm_num)
    (by intro p hp; simp at hp; subst hp; norm_num)).2.1
  rw [h]
  norm_num [listMin]

end RateLimiterM

namespace CacheKeyM

/-- A decimal digit character, `chr(48 + d)`. -/
def digitChar (d : Nat) : Char := Char.ofNat (48 + d)

/-- A lowercase hexadecimal digit character, as produced by Python's
`'\u%04x' % code`. -/
def hexChar (d : Nat) : Char := if d < 10 then Char.ofNat (48 + d) else Char.ofNat (87 + d)

/-- Python `repr` of a nonnegative integer: its decimal digits. -/
def natDec (n : Nat) : List Char :=
  if n = 0 then [digitChar 0] else (Nat.digits 10 n).reverse.map digitChar

/-- Python `repr` of an `int` (what `json.dumps` emits for `max_tokens`). -/
def intDec (i : Int) : List Char :=
  if i < 0 then '-' :: natDec i.natAbs else natDec i.natAbs

/-- `json.dumps` escaping of one character with `ensure_ascii=False`: `\` and
`"` are backslash-escaped, the control characters `\b \f \n \r \t` take their
two-character escapes, every other character below `0x20` becomes `\u00XY`,
and everything else is emitted verbatim. -/
def jsonEscapeChar (c : Char) : List Char :=
  if c = '\\' then ['\\', '\\']
  else if c = '"' then ['\\', '"']
  else if c = '\x08' then ['\\', 'b']
  else if c = '\x0c' then ['\\', 'f']
  else if c = '\n' then ['\\', 'n']
  else if c = '\r' then ['\\', 'r']
  else if c = '\t' then ['\\', 't']
  else if c.toNat < 32 then
    ['\\', 'u', '0', '0', hexChar (c.toNat / 16), hexChar (c.toNat % 16)]
  else [c]

/-- `json.dumps` escaping of a whole string. -/
def escList : List Char → List Char
  | [] => []
  | c :: cs => jsonEscapeChar c ++ escList cs

/-- A JSON string literal: `"` + escaped content + `"`. -/
def jsonStr (s : String) : List Char := '"' :: (escList s.data ++ ['"'])

/-- `Message` of `adapters/base.py` as serialized by
`m.model_dump()` inside `_build_cache_key`: the dict `(role, content)`. -/
structure Message where
  role : String
  content : String
deriving DecidableEq

/-- `CompletionRequest` of `adapters/base.py`.  `temperature` is a Python
float, embedded as `ℚ`; `metadata` is an opaque string map (its values never
reach the cache key). -/
structure CompletionRequest where
  model : String
  messages : List Message
  temperature : ℚ := 1
  max_tokens : Int := 4096
  stop : Option (List String) := none
  stream : Bool := false
  metadata : List (String × String) := []
deriving DecidableEq

/-- One message dict under `json.dumps(..., sort_keys=True)`: the keys sort
as `content < role`, and the default separators are `", "` and `": "`. -/
def dumpMessage (m : Message) : List Char :=
  '\x7b' :: ("\"content\": ".data ++
    (jsonStr m.content ++ (", \"role\": ".data ++ (jsonStr m.role ++ ['\x7d']))))

/-- The comma-joined items of the messages array. -/
def dumpItems : List Message → List Char
  | [] => []
  | [m] => dumpMessage m
  | m :: m2 :: ms => dumpMessage m ++ (',' :: ' ' :: dumpItems (m2 :: ms))

/-- The messages array. -/
def dumpMessages (ms : List Message) : List Char := '[' :: (dumpItems ms ++ [']'])

/-- The serialized key input
`json.dumps({"model": ..., "messages": [...], "temperature": ...,
"max_tokens": ...}, sort_keys=True, ensure_ascii=False)`: with the keys in
sorted order (`max_tokens < messages < model < temperature`).  `fr` is
Python's `repr` of a float, an external primitive of the runtime, passed in
as a parameter (`json.dumps` calls it to render `temperature`). -/
def keyInput (fr : ℚ → String) (r : CompletionRequest) : List Char :=
  '\x7b' :: ("\"max_tokens\": ".data ++
    (intDec r.max_tokens ++
      (',' :: (" \"messages\": ".data ++
        (dumpMessages r.messages ++
          (", \"model\": ".data ++
            (jsonStr r.model ++
              (", \"temperature\": ".data ++
                ((fr r.temperature).data ++ ['\x7d'])))))))))

/-- `LLMCache._build_cache_key`: `"llm:cache:"` followed by the hex SHA-256
digest of the serialized key input.  `sha` stands for
`hashlib.sha256(...).hexdigest()`, an external primitive passed in as a
parameter. -/
def build_cache_key (sha : String → String) (fr : ℚ → String)
    (r : CompletionRequest) : String :=
  "llm:cache:" ++ sha (String.mk (keyInput fr r))

/-- The four fields that feed the cache key. -/
def keyFields (r : CompletionRequest) : String × List Message × ℚ × Int :=
  (r.model, r.messages, r.temperature, r.max_tokens)

end CacheKeyM

namespace CacheKeyM

theorem string_ext {s t : String} (h : s.data = t.data) : s = t := by
  cases s; cases t; exact congrArg String.mk h

theorem charToNat_inj {a b : Char} (h : a.toNat = b.toNat) : a = b :=
  Char.eq_of_val_eq (UInt32.toNat.inj h)

set_option maxHeartbeats 2000000 in
theorem hex_pair_inj : ∀ m < 32, ∀ n < 32,
    hexChar (m / 16) = hexChar (n / 16) → hexChar (m % 16) = hexChar (n % 16) →
    m = n := by
  decide

theorem escChar_ne_nil (c : Char) : jsonEscapeChar c ≠ [] := by
  unfold jsonEscapeChar
  split_ifs <;> simp

theorem escChar_head_ne_quote (c x : Char) (xs : List Char)
    (hx : jsonEscapeChar c = x :: xs) : ¬ x = '"' := by
  unfold jsonEscapeChar at hx
  split_ifs at hx with h1 h2 h3 h4 h5 h6 h7 h8 <;>
    (injection hx with h9 h10; subst h9) <;>
    first
      | exact fun hq => absurd hq (by decide)
      | exact fun hq => h2 hq

set_option maxHeartbeats 4000000 in
theorem escChar_det (a b : Char) (x y : List Char)
    (h : jsonEscapeChar a ++ x = jsonEscapeChar b ++ y) : a = b ∧ x = y := by
  unfold jsonEscapeChar at h
  split_ifs at h <;> try simp_all
  all_goals try (exact absurd h.1.symm (by assumption))
  all_goals
    exact charToNat_inj
      (hex_pair_inj _ (by assumption) _ (by assumption) h.1 h.2.1)

theorem escList_peel :
    ∀ (s1 s2 r1 r2 : List Char),
      escList s1 ++ ('"' :: r1) = escList s2 ++ ('"' :: r2) →
      s1 = s2 ∧ r1 = r2 := by
  intro s1
  induction s1 with
  | nil =>
    intro s2 r1 r2 h
    cases s2 with
    | nil => simpa using h
    | cons d ds =>
      exfalso
      rcases hh : jsonEscapeChar d with _ | ⟨x, xs⟩
      · exact escChar_ne_nil d hh
      · rw [escList, escList, hh] at h
        simp only [List.nil_append, List.cons_append, List.append_assoc,
          List.cons.injEq] at h
        exact escChar_head_ne_quote d x xs hh h.1.symm
  | cons c cs ih =>
    intro s2 r1 r2 h
    cases s2 with
    | nil =>
      exfalso
      rcases hh : jsonEscapeChar c with _ | ⟨x, xs⟩
      · exact escChar_ne_nil c hh
      · rw [escList, escList, hh] at h
        simp only [List.nil_append, List.cons_append, List.append_assoc,
          List.cons.injEq] at h
        exact escChar_head_ne_quote c x xs hh h.1
    | cons d ds =>
      rw [escList, escList, List.append_assoc, List.append_assoc] at h
      obtain ⟨hcd, hrest⟩ := escChar_det c d _ _ h
      subst hcd
      obtain ⟨h1, h2⟩ := ih ds r1 r2 hrest
      exact ⟨by rw [h1], h2⟩

theorem jsonStr_peel (s1 s2 : String) (r1 r2 : List Char)
    (h : jsonStr s1 ++ r1 = jsonStr s2 ++ r2) : s1 = s2 ∧ r1 = r2 := by
  unfold jsonStr at h
  simp only [List.cons_append, List.append_assoc, List.singleton_append,
    List.cons.injEq, true_and] at h
  obtain ⟨h1, h2⟩ := escList_peel _ _ _ _ h
  exact ⟨string_ext h1, h2⟩

theorem token_peel (dl : Char) :
    ∀ (xs ys r1 r2 : List Char),
      (∀ c ∈ xs, ¬ c = dl) → (∀ c ∈ ys, ¬ c = dl) →
      xs ++ (dl :: r1) = ys ++ (dl :: r2) → xs = ys ∧ r1 = r2 := by
  intro xs
  induction xs with
  | nil =>
    intro ys r1 r2 _ hys h
    cases ys with
    | nil => simpa using h
    | cons y ys =>
      exfalso
      simp only [List.nil_append, List.cons_append, List.cons.injEq] at h
      exact hys y (List.mem_cons_self _ _) h.1.symm
  | cons x xs ih =>
    intro ys r1 r2 hxs hys h
    cases ys with
    | nil =>
      exfalso
      simp only [List.nil_append, List.cons_append, List.cons.injEq] at h
      exact hxs x (List.mem_cons_self _ _) h.1
    | cons y ys =>
      simp only [List.cons_append, List.cons.injEq] at h
      obtain ⟨hxy, h⟩ := h
      subst hxy
      obtain ⟨h1, h2⟩ := ih ys r1 r2
        (fun c hc => hxs c (List.mem_cons_of_mem _ hc))
        (fun c hc => hys c (List.mem_cons_of_mem _ hc)) h
      exact ⟨by rw [h1], h2⟩

theorem dumpMessage_peel (m1 m2 : Message) (r1 r2 : List Char)
    (h : dumpMessage m1 ++ r1 = dumpMessage m2 ++ r2) : m1 = m2 ∧ r1 = r2 := by
  unfold dumpMessage at h
  simp only [List.cons_append, List.append_assoc, List.singleton_append,
    List.nil_append, List.cons.injEq, true_and] at h
  obtain ⟨hc, h⟩ := jsonStr_peel _ _ _ _ h
  simp only [List.cons.injEq, true_and, List.nil_append] at h
  obtain ⟨hr, h⟩ := jsonStr_peel _ _ _ _ h
  simp only [List.cons.injEq, true_and, List.nil_append] at h
  refine ⟨?_, h⟩
  cases m1; cases m2
  simp_all

theorem dumpItems_cons (m : Message) (ms : List Message) :
    ∃ t, dumpItems (m :: ms) = dumpMessage m ++ t ∧
      (t = [] ∧ ms = [] ∨
        ∃ m2 ms2, ms = m2 :: ms2 ∧ t = ',' :: ' ' :: dumpItems (m2 :: ms2)) := by
  cases ms with
  | nil => exact ⟨[], by simp [dumpItems], Or.inl ⟨rfl, rfl⟩⟩
  | cons m2 ms2 =>
    exact ⟨',' :: ' ' :: dumpItems (m2 :: ms2), by simp [dumpItems],
      Or.inr ⟨m2, ms2, rfl, rfl⟩⟩

theorem dumpMessage_head (m : Message) :
    ∃ t, dumpMessage m = '\x7b' :: t := ⟨_, rfl⟩

theorem dumpItems_peel :
    ∀ (ms1 ms2 : List Message) (r1 r2 : List Char),
      dumpItems ms1 ++ (']' :: r1) = dumpItems ms2 ++ (']' :: r2) →
      ms1 = ms2 ∧ r1 = r2 := by
  intro ms1
  induction ms1 with
  | nil =>
    intro ms2 r1 r2 h
    cases ms2 with
    | nil => simpa [dumpItems] using h
    | cons m2 ms2 =>
      exfalso
      obtain ⟨t, ht, -⟩ := dumpItems_cons m2 ms2
      obtain ⟨u, hu⟩ := dumpMessage_head m2
      rw [dumpItems, ht, hu] at h
      simp only [List.nil_append, List.cons_append, List.append_assoc,
        List.cons.injEq] at h
      exact absurd h.1 (by decide)
  | cons m1 ms1 ih =>
    intro ms2 r1 r2 h
    cases ms2 with
    | nil =>
      exfalso
      obtain ⟨t, ht, -⟩ := dumpItems_cons m1 ms1
      obtain ⟨u, hu⟩ := dumpMessage_head m1
      rw [dumpItems, ht, hu] at h
      simp only [List.nil_append, List.cons_append, List.append_assoc,
        List.cons.injEq] at h
      exact absurd h.1 (by decide)
    | cons m2 ms2 =>
      cases ms1 with
      | nil =>
        cases ms2 with
        | nil =>
          have hp : dumpMessage m1 ++ (']' :: r1) =
              dumpMessage m2 ++ (']' :: r2) := by
            simpa [dumpItems] using h
          obtain ⟨hm, h2⟩ := dumpMessage_peel _ _ _ _ hp
          simp only [List.cons.injEq, true_and] at h2
          exact ⟨by rw [hm], h2⟩
        | cons m2b ms2b =>
          exfalso
          have hp : dumpMessage m1 ++ (']' :: r1) =
              dumpMessage m2 ++
                (',' :: ' ' :: (dumpItems (m2b :: ms2b) ++ (']' :: r2))) := by
            simpa [dumpItems, List.append_assoc] using h
          obtain ⟨-, h2⟩ := dumpMessage_peel _ _ _ _ hp
          simp only [List.cons.injEq] at h2
          exact absurd h2.1 (by decide)
      | cons m1b ms1b =>
        cases ms2 with
        | nil =>
          exfalso
          have hp : dumpMessage m1 ++
                (',' :: ' ' :: (dumpItems (m1b :: ms1b) ++ (']' :: r1))) =
              dumpMessage m2 ++ (']' :: r2) := by
            simpa [dumpItems, List.append_assoc] using h
          obtain ⟨-, h2⟩ := dumpMessage_peel _ _ _ _ hp
          simp only [List.cons.injEq] at h2
          exact absurd h2.1 (by decide)
        | cons m2b ms2b =>
          have hp : dumpMessage m1 ++
                (',' :: ' ' :: (dumpItems (m1b :: ms1b) ++ (']' :: r1))) =
              dumpMessage m2 ++
                (',' :: ' ' :: (dumpItems (m2b :: ms2b) ++ (']' :: r2))) := by
            simpa [dumpItems, List.append_assoc] using h
          obtain ⟨hm, h2⟩ := dumpMessage_peel _ _ _ _ hp
          simp only [List.cons.injEq, true_and] at h2
          obtain ⟨hh1, hh2⟩ := ih _ r1 r2 h2
          exact ⟨by rw [hm, hh1], hh2⟩

theorem dumpMessages_peel (ms1 ms2 : List Message) (r1 r2 : List Char)
    (h : dumpMessages ms1 ++ r1 = dumpMessages ms2 ++ r2) :
    ms1 = ms2 ∧ r1 = r2 := by
  unfold dumpMessages at h
  simp only [List.cons_append, List.append_assoc, List.singleton_append,
    List.cons.injEq, true_and] at h
  exact dumpItems_peel _ _ _ _ h

theorem natDec_digit_chars (n : Nat) :
    ∀ c ∈ natDec n, ∃ d, d < 10 ∧ c = digitChar d := by
  unfold natDec
  split
  · intro c hc
    simp only [List.mem_singleton] at hc
    exact ⟨0, by norm_num, hc⟩
  · intro c hc
    rcases List.mem_map.mp hc with ⟨d, hd, rfl⟩
    exact ⟨d, Nat.digits_lt_base (by norm_num) (List.mem_reverse.mp hd), rfl⟩

theorem intDec_chars (i : Int) :
    ∀ c ∈ intDec i, c = '-' ∨ ∃ d, d < 10 ∧ c = digitChar d := by
  unfold intDec
  split
  · intro c hc
    rcases List.mem_cons.mp hc with h | h
    · exact Or.inl h
    · exact Or.inr (natDec_digit_chars _ c h)
  · intro c hc
    exact Or.inr (natDec_digit_chars _ c hc)

theorem digit_sign_chars : ('-' : Char) ≠ ',' ∧ ('-' : Char) ≠ '/' ∧
    ∀ d < 10, digitChar d ≠ ',' ∧ digitChar d ≠ '/' := by
  decide

theorem intDec_ne_comma (i : Int) : ∀ c ∈ intDec i, ¬ c = ',' := by
  intro c hc
  rcases intDec_chars i c hc with h | ⟨d, hd, h⟩
  · exact h ▸ digit_sign_chars.1
  · exact h ▸ (digit_sign_chars.2.2 d hd).1

theorem intDec_ne_slash (i : Int) : ∀ c ∈ intDec i, ¬ c = '/' := by
  intro c hc
  rcases intDec_chars i c hc with h | ⟨d, hd, h⟩
  · exact h ▸ digit_sign_chars.2.1
  · exact h ▸ (digit_sign_chars.2.2 d hd).2

theorem natDec_ne_slash (n : Nat) : ∀ c ∈ natDec n, ¬ c = '/' := by
  intro c hc
  rcases natDec_digit_chars n c hc with ⟨d, hd, h⟩
  exact h ▸ (digit_sign_chars.2.2 d hd).2

theorem digitChar_inj : ∀ d1 < 10, ∀ d2 < 10, digitChar d1 = digitChar d2 → d1 = d2 := by
  decide

theorem mapDigit_inj :
    ∀ (ds es : List Nat), (∀ d ∈ ds, d < 10) → (∀ e ∈ es, e < 10) →
      ds.map digitChar = es.map digitChar → ds = es := by
  intro ds
  induction ds with
  | nil =>
    intro es _ _ h
    cases es with
    | nil => rfl
    | cons e es => simp at h
  | cons d ds ih =>
    intro es hds hes h
    cases es with
    | nil => simp at h
    | cons e es =>
      simp only [List.map_cons, List.cons.injEq] at h
      have hde := digitChar_inj d (hds d (List.mem_cons_self _ _)) e
        (hes e (List.mem_cons_self _ _)) h.1
      rw [hde, ih es (fun x hx => hds x (List.mem_cons_of_mem _ hx))
        (fun x hx => hes x (List.mem_cons_of_mem _ hx)) h.2]

theorem natDec_inj (m n : Nat) (h : natDec m = natDec n) : m = n := by
  by_cases hm : m = 0 <;> by_cases hn : n = 0
  · rw [hm, hn]
  · exfalso
    rw [natDec, if_pos hm, natDec, if_neg hn] at h
    have hds : ([0] : List Nat).map digitChar = (Nat.digits 10 n).reverse.map digitChar := by
      simpa [digitChar] using h
    have := mapDigit_inj [0] (Nat.digits 10 n).reverse
      (by intro d hd; simp at hd; omega)
      (fun e he => Nat.digits_lt_base (by norm_num) (List.mem_reverse.mp he)) hds
    have hdig : Nat.digits 10 n = [0] := by
      have := congrArg List.reverse this
      simpa using this.symm
    have := Nat.ofDigits_digits 10 n
    rw [hdig] at this
    simp [Nat.ofDigits] at this
    exact hn this.symm
  · exfalso
    rw [natDec, if_neg hm, natDec, if_pos hn] at h
    have hds : (Nat.digits 10 m).reverse.map digitChar = ([0] : List Nat).map digitChar := by
      simpa [digitChar] using h
    have := mapDigit_inj (Nat.digits 10 m).reverse [0]
      (fun e he => Nat.digits_lt_base (by norm_num) (List.mem_reverse.mp he))
      (by intro d hd; simp at hd; omega) hds
    have hdig : Nat.digits 10 m = [0] := by
      have := congrArg List.reverse this
      simpa using this
    have := Nat.ofDigits_digits 10 m
    rw [hdig] at this
    simp [Nat.ofDigits] at this
    exact hm this.symm
  · rw [natDec, if_neg hm, natDec, if_neg hn] at h
    have := mapDigit_inj (Nat.digits 10 m).reverse (Nat.digits 10 n).reverse
      (fun e he => Nat.digits_lt_base (by norm_num) (List.mem_reverse.mp he))
      (fun e he => Nat.digits_lt_base (by norm_num) (List.mem_reverse.mp he)) h
    have hdig : Nat.digits 10 m = Nat.digits 10 n := by
      have := congrArg List.reverse this
      simpa using this
    have h1 := Nat.ofDigits_digits 10 m
    have h2 := Nat.ofDigits_digits 10 n
    rw [hdig] at h1
    rw [h2] at h1
    exact h1.symm

theorem natDec_head_digit (n : Nat) :
    ∀ t, ¬ natDec n = '-' :: t := by
  intro t h
  have hmem : ('-' : Char) ∈ natDec n := by
    rw [h]; exact List.mem_cons_self _ _
  rcases natDec_digit_chars n '-' hmem with ⟨d, hd, hdc⟩
  revert hdc
  have : ∀ d < 10, ¬ (('-' : Char) = digitChar d) := by decide
  exact this d hd

theorem intDec_inj (i j : Int) (h : intDec i = intDec j) : i = j := by
  unfold intDec at h
  split_ifs at h with hi hj hj
  · simp only [List.cons.injEq, true_and] at h
    have := natDec_inj _ _ h
    omega
  · exfalso
    exact natDec_head_digit j.natAbs _ h.symm
  · exfalso
    exact natDec_head_digit i.natAbs _ h
  · have := natDec_inj _ _ h
    omega

theorem keyInput_inj (fr : ℚ → String) (hfr : Function.Injective fr)
    (r1 r2 : CompletionRequest) (h : keyInput fr r1 = keyInput fr r2) :
    keyFields r1 = keyFields r2 := by
  unfold keyInput at h
  simp only [List.cons_append, List.append_assoc, List.singleton_append,
    List.nil_append, List.cons.injEq, true_and] at h
  obtain ⟨hmax, h⟩ := token_peel ',' _ _ _ _
    (intDec_ne_comma r1.max_tokens) (intDec_ne_comma r2.max_tokens) h
  have hmaxe : r1.max_tokens = r2.max_tokens := intDec_inj _ _ hmax
  simp only [List.cons.injEq, true_and, List.nil_append] at h
  obtain ⟨hmsgs, h⟩ := dumpMessages_peel _ _ _ _ h
  simp only [List.cons.injEq, true_and, List.nil_append] at h
  obtain ⟨hmodel, h⟩ := jsonStr_peel _ _ _ _ h
  simp only [List.cons.injEq, true_and, List.nil_append] at h
  have hdata : (fr r1.temperature).data = (fr r2.temperature).data := by
    have hrev := congrArg List.reverse h
    simpa using hrev
  have htemp : r1.temperature = r2.temperature := hfr (string_ext hdata)
  unfold keyFields
  rw [hmodel, hmsgs, htemp, hmaxe]

/-- Claim C1, confirmed.  The cache key of `_build_cache_key` depends on
exactly the four fields `model`, `messages` (as an ordered sequence),
`temperature` and `max_tokens`: requests agreeing on them — whatever their
`stop`, `stream` and `metadata` — get the same key (conjunct 1), and the
serialized key input is injective in those four fields, so any difference in
them yields a distinct serialized key input (conjunct 2).  `sha` and `fr`
stand for the runtime's SHA-256 and float-`repr` primitives; injectivity of
the key input needs only that `repr` is injective on floats (a documented
guarantee of Python's float `repr`, which round-trips). -/
theorem cache_key_spec (sha : String → String) (fr : ℚ → String)
    (hfr : Function.Injective fr) (r1 r2 : CompletionRequest) :
    (keyFields r1 = keyFields r2 →
      build_cache_key sha fr r1 = build_cache_key sha fr r2)
    ∧ (keyInput fr r1 = keyInput fr r2 ↔ keyFields r1 = keyFields r2) := by
  have hcong : keyFields r1 = keyFields r2 → keyInput fr r1 = keyInput fr r2 := by
    intro hf
    unfold keyFields at hf
    simp only [Prod.mk.injEq] at hf
    obtain ⟨h1, h2, h3, h4⟩ := hf
    unfold keyInput
    rw [h1, h2, h3, h4]
  refine ⟨?_, ⟨keyInput_inj fr hfr r1 r2, hcong⟩⟩
  intro hf
  unfold build_cache_key
  rw [hcong hf]

/-- A concrete injective float renderer used to instantiate `fr` in the
witness: `num/den` in decimal (any injective renderer makes the point — the
theorem is parametric in it). -/
def myFr (q : ℚ) : String :=
  String.mk (intDec q.num ++ ('/' :: natDec q.den))

theorem myFr_inj : Function.Injective myFr := by
  intro q1 q2 h
  have hd : intDec q1.num ++ ('/' :: natDec q1.den) =
      intDec q2.num ++ ('/' :: natDec q2.den) := congrArg String.data h
  obtain ⟨h1, h2⟩ := token_peel '/' _ _ _ _
    (intDec_ne_slash q1.num) (intDec_ne_slash q2.num) hd
  exact Rat.ext (intDec_inj _ _ h1) (natDec_inj _ _ h2)

/-- Witness for C1's theorem: two requests differing only in `stop`, `stream`
and `metadata` receive identical cache keys. -/
theorem cache_key_spec_witness :
    build_cache_key id myFr
        ⟨"gpt-4", [⟨"user", "hi"⟩], 1, 100, none, false, []⟩ =
      build_cache_key id myFr
        ⟨"gpt-4", [⟨"user", "hi"⟩], 1, 100, some ["x"], true, [("a", "b")]⟩ :=
  (cache_key_spec id myFr myFr_inj
    ⟨"gpt-4", [⟨"user", "hi"⟩], 1, 100, none, false, []⟩
    ⟨"gpt-4", [⟨"user", "hi"⟩], 1, 100, some ["x"], true, [("a", "b")]⟩).1 rfl

end CacheKeyM
